import Mathlib

/-
  Verification development for the FPGADevice labscript driver.

  The Python sources are embedded shallowly: Python floats are modelled as
  rationals (the claims under study concern branch selection, tuple order and
  integer-valued arithmetic, none of which depend on binary rounding), Python
  ints as integers, numpy record arrays as lists of structures, and the
  in-memory smart-programming dictionaries as functions from names to options.
-/

/-- Truncation toward zero: the behaviour of the Python int() builtin on a
finite numeric value. -/
def pyTrunc (q : ℚ) : ℤ := if 0 ≤ q then ⌊q⌋ else -⌊-q⌋

/-- Rounding half away from zero: the behaviour of the Python 2 round()
builtin on a finite numeric value. -/
def pyRound (q : ℚ) : ℤ := if 0 ≤ q then ⌊q + 1/2⌋ else -⌊-q + 1/2⌋

/-- Embedding of quantize_analog_value from src/FPGADevice/util.py.

Source, line by line: step = (range_max - range_min) / (2.0**16 - 1); if
value > range_max it returns the pair (int(2.0**16 - 1), int(step * (2.0**16 - 1)));
if value < range_min it returns (0, 0); otherwise it returns
(round(value / step) * step, int(round((value - range_min) / step))).
The except ValueError branch of the source fires only for nan input, which a
rational cannot be, and the divide-by-zero case range_max = range_min is
outside every claim (the claims assume range_min < range_max). -/
def quantize_analog_value (value range_min range_max : ℚ) : ℚ × ℚ :=
  let step := (range_max - range_min) / (2 ^ 16 - 1)
  if value > range_max then
    ((2 : ℚ) ^ 16 - 1, (pyTrunc (step * ((2 : ℚ) ^ 16 - 1)) : ℚ))
  else if value < range_min then
    (0, 0)
  else
    ((pyRound (value / step) : ℚ) * step, (pyRound ((value - range_min) / step) : ℚ))

/-- One compiler clock instruction: hold for step seconds, repeated reps more
times (the dictionaries with keys step and reps produced by
Pseudoclock.generate_code). -/
structure ClockInstruction where
  step : ℚ
  reps : ℤ
  deriving DecidableEq, Repr, Inhabited

/-- One encoded digital tick: the record dtype [(n_clocks, int), (toggles, int)]
written to the clocks group of the shot file. -/
structure DigitalTick where
  n_clocks : ℤ
  toggles : ℤ
  deriving DecidableEq, Repr, Inhabited

/-- Modelled from the spec: the production digital encoder
convert_to_clocks_and_toggles lives in
labscript_devices/FPGADevice/clock_processing.py, which is absent from the
provided sources (only its caller FPGADevice.generate_code is present).
Following the spec, sections 4.3 and 9: emit a first tick whose toggle count is
the initial logic level and whose cycle count is round(hold * clock) - 1, then
decrement the first instruction's repeat count by one, then for every
instruction (the decremented first one included) emit a tick with cycle count
round(hold * clock) - 1 and toggle count equal to the repeat count. -/
def convert_to_clocks_and_toggles (clock : List ClockInstruction)
    (initial_state : ℤ) (clock_limit : ℚ) : List DigitalTick :=
  match clock with
  | [] => []
  | first :: rest =>
      { n_clocks := pyRound (first.step * clock_limit) - 1, toggles := initial_state } ::
      { n_clocks := pyRound (first.step * clock_limit) - 1, toggles := first.reps - 1 } ::
      rest.map (fun t => { n_clocks := pyRound (t.step * clock_limit) - 1, toggles := t.reps })

/-- One tick of the early encoder revision of src/FPGADevice.py: n_clocks is a
Python float there, so the field is rational. The formula embeds
period = int(round(step / clock_resolution)) * clock_resolution followed by
n_clocks = period * clock_limit - 1. -/
def early_tick (t : ClockInstruction) (reps : ℤ)
    (clock_limit clock_resolution : ℚ) : ℚ × ℤ :=
  ((pyRound (t.step / clock_resolution) : ℚ) * clock_resolution * clock_limit - 1, reps)

/-- Embedding of convert_to_clocks_and_toggles from src/FPGADevice.py, lines
25 to 52 (the early revision). For a digital output the first appended tick is
(period / clock_limit - 1, initial_state) - division, not multiplication - and
the first instruction's reps is decremented before the general loop emits its
tick. is_digital stands for isinstance(output, DigitalOut) and initial_state
for output.raw_output[0]. -/
def convert_to_clocks_and_toggles_early (clock : List ClockInstruction)
    (is_digital : Bool) (initial_state : ℤ)
    (clock_limit clock_resolution : ℚ) : List (ℚ × ℤ) :=
  match clock with
  | [] => []
  | first :: rest =>
      let rest' := rest.map (fun t => early_tick t t.reps clock_limit clock_resolution)
      if is_digital then
        ((pyRound (first.step / clock_resolution) : ℚ) * clock_resolution / clock_limit - 1,
          initial_state) ::
        early_tick first (first.reps - 1) clock_limit clock_resolution :: rest'
      else
        early_tick first first.reps clock_limit clock_resolution :: rest'

/-- Accumulator loop of the clock reducer: merge every following instruction
whose hold duration equals the accumulator's, summing repeat counts plus one
for the instruction itself; on a differing duration emit the accumulator and
restart from the differing instruction. -/
def reduceGo (acc : ClockInstruction) : List ClockInstruction → List ClockInstruction
  | [] => [acc]
  | y :: ys =>
      if y.step = acc.step then
        reduceGo { step := acc.step, reps := acc.reps + y.reps + 1 } ys
      else
        acc :: reduceGo y ys

/-- Modelled from the spec: reduce_clock_instructions lives in
labscript_devices/FPGADevice/clock_processing.py, which is absent from the
provided sources (only its caller FPGADevice.generate_code is present).
Following the spec, section 4.2: scan instructions in order; while the next
instruction's hold duration equals the current accumulator's, merge by summing
repeat counts (+1 for the instruction itself) into the accumulator; on a
differing duration emit the accumulator and start a new one. -/
def reduce_clock_instructions : List ClockInstruction → List ClockInstruction
  | [] => []
  | x :: xs => reduceGo x xs

/-- Embedding of the digital resting-value computation of
FPGADeviceWorker.transition_to_buffered (src/labscript_devices/FPGADevice/FPGADevice.py,
lines 483 to 486): n_toggles = sum(clock[toggles]);
final_state = clock[0][toggles] + (n_toggles % 2). The Python indexing
clock[0] presumes a nonempty array, as every stored channel program is; headI
returns the default tick on the empty list. -/
def digital_final_state (clock : List DigitalTick) : ℤ :=
  clock.headI.toggles + (clock.map (fun t => t.toggles)).sum % 2

/-- Statement of the resting value as claim C3 words it: the initial logic
level (first tick's toggle field) XOR the parity of the toggle counts applied
after the initial level; XOR of logic levels is addition mod 2. -/
def claim_final_state (clock : List DigitalTick) : ℤ :=
  (clock.headI.toggles + (clock.tail.map (fun t => t.toggles)).sum) % 2

/-- Byte decomposition loop of value_to_bytes: while i > 0 collect i % 256 at
the front and shift i right by 8, so the most significant byte comes first. -/
def natToBytes : ℕ → List ℕ
  | 0 => []
  | n + 1 => natToBytes ((n + 1) / 256) ++ [(n + 1) % 256]
decreasing_by exact Nat.div_lt_self (Nat.succ_pos n) (by norm_num)

/-- Embedding of value_to_bytes from src/FPGADevice/util.py (identical in
src/labscript_devices/FPGADevice/fpga_api.py via util): big-endian bytes of i
(empty for i less than 1, since the while loop does not run), zero-padded at
the front or truncated to the requested length. -/
def value_to_bytes (i : ℤ) (length : Option ℕ) : List ℕ :=
  let bytes := if 0 < i then natToBytes i.toNat else []
  match length with
  | none => bytes
  | some L =>
      if bytes.length ≤ L then List.replicate (L - bytes.length) 0 ++ bytes
      else bytes.take L

/-- A Python numeric value that may be the nan sentinel FPGAWait.null_value
(src/FPGADevice/fpga_wait.py stores np.nan for every absent wait field,
because h5py cannot store None). -/
inductive PyVal where
  | nan : PyVal
  | num : ℚ → PyVal
  deriving DecidableEq, Repr

/-- IEEE semantics of the Python != operator on possibly-nan operands: any
comparison involving nan is unequal, so nan != nan is true. -/
def pyNe : PyVal → PyVal → Bool
  | PyVal.nan, _ => true
  | _, PyVal.nan => true
  | PyVal.num a, PyVal.num b => decide (a ≠ b)

/-- Bytes appended by send_value for a possibly-nan field value. For nan the
while loop of value_to_bytes never runs (nan > 0 is false in IEEE), so the
result is pure zero padding and no TypeError is raised; finite values reaching
the wire are integers, on which pyTrunc is the identity. -/
def send_value_bytes (v : PyVal) (n_bytes : Option ℕ) : List ℕ :=
  match v with
  | PyVal.nan => value_to_bytes 0 n_bytes
  | PyVal.num q => value_to_bytes (pyTrunc q) n_bytes

/-- quantize_analog_value applied to a possibly-nan wait threshold: for nan
neither extreme-value comparison fires and int(round(nan)) raises the
ValueError that the source catches by returning (0, 0). -/
def quantize_pyval (value : PyVal) (range_min range_max : ℚ) : ℚ × ℚ :=
  match value with
  | PyVal.nan => (0, 0)
  | PyVal.num q => quantize_analog_value q range_min range_max

/-- Mode identifiers of the wire protocol (class FPGAModes of
src/labscript_devices/FPGADevice/fpga_api.py). -/
def FPGAModes.realtime : ℕ := 0

def FPGAModes.pseudoclock : ℕ := 1

def FPGAModes.data : ℕ := 2

def FPGAModes.parameter : ℕ := 3

def FPGAModes.trigger : ℕ := 4

def FPGAModes.repeat : ℕ := 5

def FPGAModes.pc_wait : ℕ := 6

def FPGAModes.digital_wait : ℕ := 7

def FPGAModes.analog_wait : ℕ := 8

def FPGAModes.wait_times : ℕ := 9

def FPGAModes.output_range : ℕ := 10

def FPGAModes.reset : ℕ := 11

/-- Embedding of FPGAInterface.send_wait_info from
src/labscript_devices/FPGADevice/fpga_api.py, lines 196 to 217, as the byte
string it appends to the write buffer. The dispatch condition of the source is
comparison != FPGAWait.null_value with null_value = nan, which IEEE makes true
for every operand. In the other branch the source first tries
send_value(board_number) and falls back to the pc-wait mode byte on TypeError;
value_to_bytes(nan) returns zero padding without raising (nan > 0 is false
before the shift is reached), so that branch, were it reachable, would always
send the board bytes. -/
def send_wait_info (board_number channel_number value comparison : PyVal) : List ℕ :=
  if pyNe comparison PyVal.nan then
    value_to_bytes (FPGAModes.analog_wait : ℤ) (some 1) ++
    send_value_bytes board_number (some 1) ++
    send_value_bytes channel_number (some 1) ++
    value_to_bytes (pyTrunc (quantize_pyval value 0 5).2) (some 2) ++
    send_value_bytes comparison (some 1)
  else
    send_value_bytes board_number (some 1) ++
    send_value_bytes channel_number (some 1) ++
    send_value_bytes value (some 1)

/-- Embedding of FPGAInterface.send_buffer from
src/labscript_devices/FPGADevice/fpga_api.py, lines 146 to 162. Returns the
list of transfers handed to ftdi.write_data and the write buffer afterwards.
With a chunk size the byte sequence is cut into
int(round(len / float(chunksize))) + 1 slices of the form
byte_sequence[i*chunksize:(i+1)*chunksize], empty slices being skipped; with
none it is written in one transfer. An empty buffer does nothing. -/
def send_buffer (write_buffer : List (List ℕ)) (chunksize : Option ℕ) :
    List (List ℕ) × List (List ℕ) :=
  if write_buffer = [] then ([], write_buffer)
  else
    let byte_sequence := write_buffer.flatten
    match chunksize with
    | some c =>
        let n_chunks := (pyRound ((byte_sequence.length : ℚ) / (c : ℚ)) + 1).toNat
        (((List.range n_chunks).map
            (fun i => (byte_sequence.drop (i * c)).take c)).filter (fun s => s ≠ []), [])
    | none => ([byte_sequence], [])

/-- Embedding of the pseudoclock loop of FPGADeviceWorker.transition_to_buffered
(src/labscript_devices/FPGADevice/FPGADevice.py, lines 470 to 481): for each
channel, send (and cache) the clock iff fresh_program is set or
np.any(clock != smart_cache.get(name)) - true when the cache has no entry or
holds a different array. Returns the names sent, in order, and the cache
afterwards. -/
def processClocks (fresh : Bool) (chans : List (String × List DigitalTick))
    (cache : String → Option (List DigitalTick)) :
    List String × (String → Option (List DigitalTick)) :=
  match chans with
  | [] => ([], cache)
  | (name, clock) :: rest =>
      if fresh || decide (cache name ≠ some clock) then
        let r := processClocks fresh rest (Function.update cache name (some clock))
        (name :: r.1, r.2)
      else
        processClocks fresh rest cache

/-- Embedding of the analog-data loop of FPGADeviceWorker.transition_to_buffered
(src/labscript_devices/FPGADevice/FPGADevice.py, lines 492 to 513): for each
channel, iff fresh_program is set or np.any(data != smart_cache.get(name)),
record final_state[name] = data[-1], cache the data and send it. Returns the
names sent, the cache afterwards, and the recorded final-state entries; the
last sample data[-1] is modelled by getLast? (the Python indexing presumes a
nonempty array). -/
def processData (fresh : Bool) (chans : List (String × List ℚ))
    (cache : String → Option (List ℚ)) :
    List String × (String → Option (List ℚ)) × List (String × Option ℚ) :=
  match chans with
  | [] => ([], cache, [])
  | (name, data) :: rest =>
      if fresh || decide (cache name ≠ some data) then
        let r := processData fresh rest (Function.update cache name (some data))
        (name :: r.1, r.2.1, (name, data.getLast?) :: r.2.2)
      else
        processData fresh rest cache

/-- The pseudoclock loop followed by its flush
(self.interface.send_buffer(clocks_chunksize, clocks_delay)). Every
send_pseudoclock call inside the loop only appends to the in-memory write
buffer; the transport write happens at the flush, after every cache update of
the loop, and a short write or negative USB status there raises FTDIError
(FPGAInterface.send_bytes, src/labscript_devices/FPGADevice/fpga_api.py, lines
125 to 139) without undoing the cache. flush_ok abstracts whether the
underlying ftdi.write_data accepted all bytes. -/
def transitionClocksTransport (fresh : Bool)
    (chans : List (String × List DigitalTick))
    (cache : String → Option (List DigitalTick)) (flush_ok : Bool) :
    (String → Option (List DigitalTick)) × Except String Unit :=
  let r := processClocks fresh chans cache
  (r.2, if flush_ok then Except.ok () else Except.error "short write")

/-- Decimal digit characters of a positive natural, most significant first. -/
def natDigitsChars (n : ℕ) : List Char := ((Nat.digits 10 n).reverse).map Nat.digitChar

/-- The Python str() of a natural number. -/
def pyStrNat (n : ℕ) : List Char := if n = 0 then ['0'] else natDigitsChars n

/-- The Python str() of an integer: a minus sign followed by the digits of the
absolute value when negative. -/
def pyStrInt (i : ℤ) : List Char :=
  if i < 0 then '-' :: pyStrNat i.natAbs else pyStrNat i.natAbs

/-- Embedding of the Python str.split(sep) with no maxsplit: splits on every
occurrence of the separator, preserving empty parts, so the result always has
one more part than there are separators. -/
def pySplit (sep : Char) : List Char → List (List Char)
  | [] => [[]]
  | c :: rest =>
      if c = sep then [] :: pySplit sep rest
      else
        match pySplit sep rest with
        | [] => [[c]]
        | p :: ps => (c :: p) :: ps

/-- Accumulated value of a decimal digit string, as Python int() computes it. -/
def digitsVal (s : List Char) : ℕ := s.foldl (fun a c => 10 * a + (c.toNat - 48)) 0

/-- The Python int() conversion restricted to plain digit strings: some value
on a nonempty all-digit string, none otherwise (where the source would raise
ValueError). The builtin also accepts surrounding whitespace and an explicit
plus sign, which never occur in connection-name tokens. -/
def pyParseNat (s : List Char) : Option ℕ :=
  if s ≠ [] ∧ s.all Char.isDigit then some (digitsVal s) else none

/-- The Python int() conversion on a possibly sign-prefixed digit string. -/
def pyParseInt (s : List Char) : Option ℤ :=
  match s with
  | [] => none
  | c :: rest =>
      if c = '-' then (pyParseNat rest).map (fun n : ℕ => (-(n : ℤ)))
      else (pyParseNat (c :: rest)).map (fun n : ℕ => ((n : ℕ) : ℤ))

/-- Embedding of the OutputConnectionName constructor
(src/labscript_devices/FPGADevice/output_connection_name.py):
"\x7b\x7d_\x7b\x7d_\x7b\x7d_\x7b\x7d".format(type_, board_num, channel_num, group_name). -/
def outputConnectionName (type_ : List Char) (board_num channel_num : ℤ)
    (group_name : List Char) : List Char :=
  type_ ++ ('_' :: (pyStrInt board_num ++ ('_' :: (pyStrInt channel_num ++ ('_' :: group_name)))))

/-- Embedding of OutputConnectionName.decode: split the token on underscores,
unpack into exactly four parts (a different count raises ValueError, here
none) and parse the middle two as integers. -/
def OutputConnectionName.decode (name : List Char) :
    Option (List Char × ℤ × ℤ × List Char) :=
  match pySplit '_' name with
  | [t, b, c, g] =>
      match pyParseInt b, pyParseInt c with
      | some bi, some ci => some (t, bi, ci, g)
      | _, _ => none
  | _ => none

/-- C1: for a digital channel with reduced instruction list
[(hold_duration=1s, repeat_count=4)] at a 1 MHz clock and initial level 0, the
claim expects exactly the two ticks (999999, 0) then (999999, 3). The encoder
revision present in src (src/FPGADevice.py) divides the first-tick period by
the clock rate and so emits 1/1000000 - 1 cycles on the first tick instead of
999999; the production rule the spec designates authoritative (modelled as
convert_to_clocks_and_toggles) emits exactly the claimed ticks. -/
theorem scenarioA_digital_encoding :
    convert_to_clocks_and_toggles_early [⟨1, 4⟩] true 0 1000000 (1/1000000000) =
      [(1/1000000 - 1, 0), (999999, 3)] ∧
    convert_to_clocks_and_toggles [⟨1, 4⟩] 0 1000000 =
      [⟨999999, 0⟩, ⟨999999, 3⟩] ∧
    ((1/1000000 - 1 : ℚ), (0 : ℤ)) ≠ ((999999 : ℚ), (0 : ℤ)) := by
  refine ⟨?_, ?_, ?_⟩ <;>
    norm_num [convert_to_clocks_and_toggles_early, convert_to_clocks_and_toggles,
      early_tick, pyRound, Prod.ext_iff]

/-- C2: the claim states quantize(6, 0, 5) = (5.0, 65535), coerced value first
and 16-bit code second. The source returns the overflow pair in the opposite
order - (65535, 5): the code first and the truncated span second - while the
in-range branch (and both call sites, which unpack value then code) use value
first. quantize(-1, 0, 5) = (0, 0) does match the claim. -/
theorem quantize_clamp_pair_order :
    quantize_analog_value 6 0 5 = (65535, 5) ∧
    quantize_analog_value (-1) 0 5 = (0, 0) ∧
    ((65535 : ℚ), (5 : ℚ)) ≠ ((5 : ℚ), (65535 : ℚ)) := by
  refine ⟨?_, ?_, ?_⟩ <;>
    norm_num [quantize_analog_value, pyTrunc, pyRound, Prod.ext_iff]

/-- C3: for the digital program [(999999, 1), (999999, 2)] - initial level 1,
then two toggles - the worker records final_state =
clock[0].toggles + (sum of toggles mod 2) = 1 + (3 mod 2) = 2, which is not a
logic level; the claim's formula (initial XOR parity of subsequent toggles)
gives 1. -/
theorem digital_final_state_formula :
    digital_final_state [⟨999999, 1⟩, ⟨999999, 2⟩] = 2 ∧
    claim_final_state [⟨999999, 1⟩, ⟨999999, 2⟩] = 1 ∧
    (2 : ℤ) ≠ 1 := by
  refine ⟨?_, ?_, ?_⟩ <;> decide

/-- The analog-branch condition of send_wait_info holds for every comparison
value, because its right operand is nan. -/
theorem pyNe_nan_right (v : PyVal) : pyNe v PyVal.nan = true := by
  cases v <;> simp [pyNe]

/-- Unfolding step of the byte decomposition loop. -/
theorem natToBytes_step (n : ℕ) (h : n ≠ 0) :
    natToBytes n = natToBytes (n / 256) ++ [n % 256] := by
  cases n with
  | zero => exact absurd rfl h
  | succ m => rw [natToBytes]

/-- A single-byte value decomposes to itself. -/
theorem natToBytes_single (n : ℕ) (h1 : 0 < n) (h2 : n < 256) :
    natToBytes n = [n] := by
  rw [natToBytes_step n h1.ne', Nat.div_eq_of_lt h2, Nat.mod_eq_of_lt h2, natToBytes]
  rfl

/-- Packing zero into L bytes yields L zero bytes. -/
theorem value_to_bytes_zero (L : ℕ) :
    value_to_bytes 0 (some L) = List.replicate L 0 := by
  simp [value_to_bytes]

/-- Packing a positive single-byte value into one byte yields that byte. -/
theorem value_to_bytes_single (n : ℕ) (h1 : 0 < n) (h2 : n < 256) :
    value_to_bytes (n : ℤ) (some 1) = [n] := by
  have hn : ((n : ℤ)).toNat = n := Int.toNat_ofNat n
  have hp : (0 : ℤ) < (n : ℤ) := by exact_mod_cast h1
  rw [value_to_bytes]
  simp only [hp, if_true, hn, natToBytes_single n h1 h2]
  norm_num

/-- C4: the claim distinguishes three wait encodings by the present fields.
The dispatch condition comparison != nan is true for every operand, so every
wait is framed as an analog wait: in particular the all-absent (PC) wait is
encoded as the analog-wait frame (mode 8, zero board, zero channel, zero
threshold, zero comparison) instead of the claimed pc-wait frame (mode 6). -/
theorem wait_dispatch_always_analog :
    (∀ b c v comp : PyVal,
      (send_wait_info b c v comp).take 1 = [FPGAModes.analog_wait]) ∧
    send_wait_info PyVal.nan PyVal.nan PyVal.nan PyVal.nan = [8, 0, 0, 0, 0, 0] ∧
    FPGAModes.analog_wait ≠ FPGAModes.pc_wait := by
  have hmode : value_to_bytes (FPGAModes.analog_wait : ℤ) (some 1) = [8] :=
    value_to_bytes_single 8 (by norm_num) (by norm_num)
  refine ⟨?_, ?_, by decide⟩
  · intro b c v comp
    rw [send_wait_info, pyNe_nan_right, if_pos rfl, hmode]
    simp [FPGAModes.analog_wait]
  · rw [send_wait_info, pyNe_nan_right, if_pos rfl, hmode]
    have hq : pyTrunc (quantize_pyval PyVal.nan 0 5).2 = 0 := by
      simp [quantize_pyval, pyTrunc]
    rw [hq]
    simp [send_value_bytes, value_to_bytes_zero, List.replicate]

/-- Dropping the empty transfers does not change the bytes transferred. -/
theorem flatten_filter_ne_nil (l : List (List ℕ)) :
    (l.filter (fun s => s ≠ [])).flatten = l.flatten := by
  induction l with
  | nil => rfl
  | cons h t ih =>
      simp only [ne_eq, decide_not] at ih ⊢
      by_cases hh : h = [] <;> simp [List.filter_cons, hh, ih]

/-- Consecutive chunk slices of width c reassemble the sliced list whenever
the slice count covers its length. -/
theorem flatten_chunks (c : ℕ) :
    ∀ (n : ℕ) (s : List ℕ), s.length ≤ n * c →
      ((List.range n).map (fun i => (s.drop (i * c)).take c)).flatten = s := by
  intro n
  induction n with
  | zero =>
      intro s hs
      have : s = [] := List.eq_nil_of_length_eq_zero (Nat.le_zero.mp (by simpa using hs))
      simp [this]
  | succ n ih =>
      intro s hs
      rw [List.range_succ_eq_map]
      have hcomp : ((fun i => (s.drop (i * c)).take c) ∘ Nat.succ) =
          fun i => ((s.drop c).drop (i * c)).take c := by
        funext i
        simp only [Function.comp_apply, List.drop_drop]
        rw [Nat.succ_mul, Nat.add_comm]
      have hs' : s.length ≤ n * c + c := by
        rw [Nat.succ_mul] at hs
        exact hs
      have hlen : (s.drop c).length ≤ n * c := by
        rw [List.length_drop]
        omega
      rw [List.map_cons, List.map_map, hcomp, List.flatten_cons, ih _ hlen]
      simp

/-- The chunk count int(round(len / float(chunksize))) + 1 computed by
send_buffer always covers the byte sequence. -/
theorem length_le_chunks (L c : ℕ) (hc : 0 < c) :
    L ≤ (pyRound ((L : ℚ) / (c : ℚ)) + 1).toNat * c := by
  have hc' : (0 : ℚ) < (c : ℚ) := by exact_mod_cast hc
  have hq : (0 : ℚ) ≤ (L : ℚ) / (c : ℚ) := by positivity
  rw [pyRound, if_pos hq]
  set r := ⌊(L : ℚ) / (c : ℚ) + 1 / 2⌋ with hr
  have hr0 : 0 ≤ r := Int.floor_nonneg.mpr (by linarith)
  have hlt : (L : ℚ) / (c : ℚ) + 1 / 2 - 1 < (r : ℚ) := Int.sub_one_lt_floor _
  have hL : (L : ℚ) < ((r : ℚ) + 1) * (c : ℚ) := by
    rw [← div_lt_iff₀ hc']
    linarith
  have hLZ : (L : ℤ) < (r + 1) * (c : ℤ) := by exact_mod_cast hL
  have htn : ((r + 1).toNat : ℤ) = r + 1 := Int.toNat_of_nonneg (by omega)
  have : (L : ℤ) < ((r + 1).toNat : ℤ) * (c : ℤ) := by rw [htn]; exact hLZ
  exact_mod_cast Int.le_of_lt this

/-- C10: flushing with a positive chunk size transmits exactly the
concatenation of the buffered byte strings, in order, each transfer nonempty
and at most the chunk size, and leaves the write buffer empty; flushing an
empty buffer transmits nothing. -/
theorem send_buffer_chunked_exact (buf : List (List ℕ)) (c : ℕ) (hc : 0 < c) :
    ((send_buffer buf (some c)).1).flatten = buf.flatten ∧
    (∀ t ∈ (send_buffer buf (some c)).1, t.length ≤ c ∧ t ≠ []) ∧
    (send_buffer buf (some c)).2 = [] ∧
    (send_buffer ([] : List (List ℕ)) (some c)).1 = [] := by
  refine ⟨?_, ?_, ?_, by simp [send_buffer]⟩
  · by_cases hb : buf = []
    · simp [send_buffer, hb]
    · rw [send_buffer, if_neg hb]
      simp only []
      rw [flatten_filter_ne_nil]
      exact flatten_chunks c _ _ (length_le_chunks _ c hc)
  · intro t ht
    by_cases hb : buf = []
    · simp [send_buffer, hb] at ht
    · rw [send_buffer, if_neg hb] at ht
      simp only [List.mem_filter, List.mem_map, List.mem_range] at ht
      obtain ⟨⟨i, _, hi⟩, hne⟩ := ht
      refine ⟨?_, by simpa using hne⟩
      rw [← hi]
      exact List.length_take_le c _
  · by_cases hb : buf = [] <;> simp [send_buffer, hb]

/-- The accumulator loop always emits a nonempty list whose head holds the
accumulator's duration and in which no two consecutive instructions share a
duration. -/
theorem reduceGo_spec (l : List ClockInstruction) : ∀ acc : ClockInstruction,
    reduceGo acc l ≠ [] ∧ (reduceGo acc l).headI.step = acc.step ∧
      List.Chain' (fun a b => a.step ≠ b.step) (reduceGo acc l) := by
  induction l with
  | nil =>
      intro acc
      have h : reduceGo acc [] = [acc] := rfl
      rw [h]
      exact ⟨by simp, by simp, by simp⟩
  | cons y ys ih =>
      intro acc
      rw [reduceGo]
      by_cases hstep : y.step = acc.step
      · rw [if_pos hstep]
        exact ih _
      · rw [if_neg hstep]
        obtain ⟨hne, hhead, hchain⟩ := ih y
        refine ⟨by simp, by simp, ?_⟩
        cases hr : reduceGo y ys with
        | nil => exact absurd hr hne
        | cons h t =>
            rw [List.chain'_cons]
            constructor
            · rw [hr] at hhead
              simp only [List.headI] at hhead
              rw [hhead]
              exact fun hc => hstep hc.symm
            · rw [hr] at hchain
              exact hchain

/-- On a list already free of consecutive equal durations the accumulator loop
is the identity. -/
theorem reduceGo_of_chain (l : List ClockInstruction) : ∀ acc : ClockInstruction,
    List.Chain' (fun a b => a.step ≠ b.step) (acc :: l) → reduceGo acc l = acc :: l := by
  induction l with
  | nil => intro acc _; rfl
  | cons y ys ih =>
      intro acc hchain
      rw [List.chain'_cons] at hchain
      rw [reduceGo, if_neg (fun h => hchain.1 h.symm), ih y hchain.2]

/-- C8: the clock reducer is idempotent - reducing an already-reduced
instruction sequence is a no-op. -/
theorem reduce_clock_instructions_idempotent (l : List ClockInstruction) :
    reduce_clock_instructions (reduce_clock_instructions l) = reduce_clock_instructions l := by
  cases l with
  | nil => rfl
  | cons x xs =>
      rw [reduce_clock_instructions]
      obtain ⟨hne, _, hchain⟩ := reduceGo_spec xs x
      cases hr : reduceGo x xs with
      | nil => exact absurd hr hne
      | cons h t =>
          rw [hr] at hchain
          rw [reduce_clock_instructions, reduceGo_of_chain t h hchain]

/-- Channels absent from the processed list keep their cache entry. -/
theorem processClocks_cache_untouched (f : Bool) :
    ∀ (chans : List (String × List DigitalTick)) cache name,
      name ∉ chans.map Prod.fst → (processClocks f chans cache).2 name = cache name := by
  intro chans
  induction chans with
  | nil => intro cache name _; rfl
  | cons p rest ih =>
      intro cache name hname
      obtain ⟨n, a⟩ := p
      simp only [List.map_cons, List.mem_cons, not_or] at hname
      rw [processClocks]
      split
      · rw [ih _ name hname.2, Function.update_noteq hname.1]
      · exact ih _ name hname.2

/-- After the pseudoclock loop the cache maps every processed channel to the
program of this shot, whether or not it was sent. -/
theorem processClocks_cache_mem (f : Bool) :
    ∀ (chans : List (String × List DigitalTick)) cache name arr,
      (chans.map Prod.fst).Nodup → (name, arr) ∈ chans →
      (processClocks f chans cache).2 name = some arr := by
  intro chans
  induction chans with
  | nil => intro cache name arr _ hm; simp at hm
  | cons p rest ih =>
      intro cache name arr hnd hm
      obtain ⟨n, a⟩ := p
      rw [List.map_cons, List.nodup_cons] at hnd
      rcases List.mem_cons.mp hm with heq | htail
      · cases heq
        rw [processClocks]
        split
        · rw [processClocks_cache_untouched f rest _ name hnd.1, Function.update_same]
        · next hcond =>
            rw [Bool.or_eq_true, decide_eq_true_eq] at hcond
            push_neg at hcond
            rw [processClocks_cache_untouched f rest _ name hnd.1]
            exact hcond.2
      · rw [processClocks]
        split
        · exact ih _ name arr hnd.2 htail
        · exact ih _ name arr hnd.2 htail

/-- With fresh_program unset, a loop pass over channels whose cache entries
already equal their programs sends nothing. -/
theorem processClocks_no_send :
    ∀ (chans : List (String × List DigitalTick)) cache,
      (∀ p ∈ chans, cache p.1 = some p.2) → (processClocks false chans cache).1 = [] := by
  intro chans
  induction chans with
  | nil => intro cache _; rfl
  | cons p rest ih =>
      intro cache hc
      obtain ⟨n, a⟩ := p
      have hn : cache n = some a := hc (n, a) (List.mem_cons_self _ _)
      rw [processClocks, if_neg (by simp [hn])]
      exact ih cache (fun q hq => hc q (List.mem_cons_of_mem _ hq))

/-- Channels absent from the analog-data collection keep their cache entry. -/
theorem processData_cache_untouched (f : Bool) :
    ∀ (chans : List (String × List ℚ)) cache name,
      name ∉ chans.map Prod.fst → (processData f chans cache).2.1 name = cache name := by
  intro chans
  induction chans with
  | nil => intro cache name _; rfl
  | cons p rest ih =>
      intro cache name hname
      obtain ⟨n, a⟩ := p
      simp only [List.map_cons, List.mem_cons, not_or] at hname
      rw [processData]
      split
      · rw [ih _ name hname.2, Function.update_noteq hname.1]
      · exact ih _ name hname.2

/-- After the analog-data loop the cache maps every processed channel to the
sample array of this shot, whether or not it was sent. -/
theorem processData_cache_mem (f : Bool) :
    ∀ (chans : List (String × List ℚ)) cache name arr,
      (chans.map Prod.fst).Nodup → (name, arr) ∈ chans →
      (processData f chans cache).2.1 name = some arr := by
  intro chans
  induction chans with
  | nil => intro cache name arr _ hm; simp at hm
  | cons p rest ih =>
      intro cache name arr hnd hm
      obtain ⟨n, a⟩ := p
      rw [List.map_cons, List.nodup_cons] at hnd
      rcases List.mem_cons.mp hm with heq | htail
      · cases heq
        rw [processData]
        split
        · rw [processData_cache_untouched f rest _ name hnd.1, Function.update_same]
        · next hcond =>
            rw [Bool.or_eq_true, decide_eq_true_eq] at hcond
            push_neg at hcond
            rw [processData_cache_untouched f rest _ name hnd.1]
            exact hcond.2
      · rw [processData]
        split
        · exact ih _ name arr hnd.2 htail
        · exact ih _ name arr hnd.2 htail

/-- With fresh_program unset, an analog-data pass over channels whose cache
entries already equal their sample arrays sends nothing. -/
theorem processData_no_send :
    ∀ (chans : List (String × List ℚ)) cache,
      (∀ p ∈ chans, cache p.1 = some p.2) → (processData false chans cache).1 = [] := by
  intro chans
  induction chans with
  | nil => intro cache _; rfl
  | cons p rest ih =>
      intro cache hc
      obtain ⟨n, a⟩ := p
      have hn : cache n = some a := hc (n, a) (List.mem_cons_self _ _)
      rw [processData, if_neg (by simp [hn])]
      exact ih cache (fun q hq => hc q (List.mem_cons_of_mem _ hq))

/-- With fresh_program unset and exactly one channel differing from its cache
entry, the analog-data loop sends exactly that channel. -/
theorem processData_one_changed :
    ∀ (l1 : List (String × List ℚ)) (k : String) (b : List ℚ)
      (l2 : List (String × List ℚ)) cache,
      (∀ p ∈ l1, cache p.1 = some p.2) → (∀ p ∈ l2, cache p.1 = some p.2) →
      cache k ≠ some b → k ∉ l2.map Prod.fst →
      (processData false (l1 ++ (k, b) :: l2) cache).1 = [k] := by
  intro l1
  induction l1 with
  | nil =>
      intro k b l2 cache _ h2 hk hk2
      rw [List.nil_append, processData, if_pos (by simp [hk])]
      have hrest : (processData false l2 (Function.update cache k (some b))).1 = [] := by
        refine processData_no_send l2 _ (fun p hp => ?_)
        have hne : p.1 ≠ k := by
          intro hc
          exact hk2 (hc ▸ List.mem_map_of_mem Prod.fst hp)
        rw [Function.update_noteq hne]
        exact h2 p hp
      simp [hrest]
  | cons p rest ih =>
      intro k b l2 cache h1 h2 hk hk2
      obtain ⟨n, a⟩ := p
      have hn : cache n = some a := h1 (n, a) (List.mem_cons_self _ _)
      rw [List.cons_append, processData, if_neg (by simp [hn])]
      exact ih k b l2 cache (fun q hq => h1 q (List.mem_cons_of_mem _ hq)) h2 hk hk2

/-- A channel outside the analog-data collection gets no final-state entry. -/
theorem processData_final_none (f : Bool) :
    ∀ (chans : List (String × List ℚ)) cache name,
      name ∉ chans.map Prod.fst →
      ((processData f chans cache).2.2).lookup name = none := by
  intro chans
  induction chans with
  | nil => intro cache name _; rfl
  | cons p rest ih =>
      intro cache name hname
      obtain ⟨n, a⟩ := p
      simp only [List.map_cons, List.mem_cons, not_or] at hname
      have hbeq : (name == n) = false := beq_eq_false_iff_ne.mpr hname.1
      rw [processData]
      split
      · simp only [List.lookup_cons, hbeq]
        exact ih _ name hname.2
      · exact ih _ name hname.2

/-- A processed channel gets a final-state entry (its last sample) exactly
when fresh_program is set or its array differs from the cache entry. -/
theorem processData_final_lookup (f : Bool) :
    ∀ (chans : List (String × List ℚ)) cache k d,
      (chans.map Prod.fst).Nodup → (k, d) ∈ chans →
      ((processData f chans cache).2.2).lookup k =
        (if f || decide (cache k ≠ some d) then some d.getLast? else none) := by
  intro chans
  induction chans with
  | nil => intro cache k d _ hm; simp at hm
  | cons p rest ih =>
      intro cache k d hnd hm
      obtain ⟨n, a⟩ := p
      rw [List.map_cons, List.nodup_cons] at hnd
      rcases List.mem_cons.mp hm with heq | htail
      · cases heq
        rw [processData]
        split
        · simp only [List.lookup_cons, beq_self_eq_true]
        · exact processData_final_none f rest _ k (by simpa using hnd.1)
      · have hkn : k ≠ n := by
          intro hc
          have hmem : k ∈ rest.map Prod.fst := List.mem_map_of_mem Prod.fst htail
          rw [hc] at hmem
          exact (by simpa using hnd.1 : n ∉ rest.map Prod.fst) hmem
        have hbeq : (k == n) = false := beq_eq_false_iff_ne.mpr hkn
        rw [processData]
        split
        · simp only [List.lookup_cons, hbeq]
          rw [ih _ k d hnd.2 htail, Function.update_noteq hkn]
        · exact ih _ k d hnd.2 htail

/-- C5: with fresh_program unset, a second shot whose per-channel tick
sequences and sample arrays are identical to the previous one emits zero
pseudoclock commands and zero data commands; if instead exactly one channel's
sample array differs from the cached one, a data command is emitted for
exactly that channel. -/
theorem smart_cache_skips_unchanged (f : Bool)
    (clockChans : List (String × List DigitalTick))
    (dataChans l1 l2 : List (String × List ℚ))
    (cacheC : String → Option (List DigitalTick))
    (cacheD : String → Option (List ℚ))
    (k : String) (a b : List ℚ)
    (hC : (clockChans.map Prod.fst).Nodup)
    (hD : (dataChans.map Prod.fst).Nodup)
    (hdecomp : dataChans = l1 ++ (k, a) :: l2)
    (hab : b ≠ a) :
    (processClocks false clockChans (processClocks f clockChans cacheC).2).1 = [] ∧
    (processData false dataChans (processData f dataChans cacheD).2.1).1 = [] ∧
    (processData false (l1 ++ (k, b) :: l2) (processData f dataChans cacheD).2.1).1 = [k] := by
  have hmemD : ∀ p ∈ dataChans, (processData f dataChans cacheD).2.1 p.1 = some p.2 :=
    fun p hp => processData_cache_mem f dataChans cacheD p.1 p.2 hD hp
  refine ⟨?_, ?_, ?_⟩
  · exact processClocks_no_send clockChans _
      (fun p hp => processClocks_cache_mem f clockChans cacheC p.1 p.2 hC hp)
  · exact processData_no_send dataChans _ hmemD
  · have hka : (k, a) ∈ dataChans := by
      rw [hdecomp]
      exact List.mem_append_right _ (List.mem_cons_self _ _)
    have hkeys : k ∉ l2.map Prod.fst := by
      rw [hdecomp, List.map_append, List.map_cons] at hD
      have := (List.Nodup.of_append_right hD)
      exact (List.nodup_cons.mp this).1
    refine processData_one_changed l1 k b l2 _
      (fun p hp => hmemD p (by rw [hdecomp]; exact List.mem_append_left _ hp))
      (fun p hp => hmemD p
        (by rw [hdecomp]; exact List.mem_append_right _ (List.mem_cons_of_mem _ hp)))
      ?_ hkeys
    have hck : (processData f dataChans cacheD).2.1 k = some a :=
      processData_cache_mem f dataChans cacheD k a hD hka
    intro hcontra
    rw [hck] at hcontra
    exact hab (Option.some.inj hcontra).symm

/-- Witness for smart_cache_skips_unchanged at a one-channel shot: identical
second shot sends nothing, changing the single sample array resends it. -/
theorem smart_cache_skips_unchanged_witness :
    (([("d", [(⟨1, 0⟩ : DigitalTick)])].map Prod.fst).Nodup) ∧
    (([("a", [(1 : ℚ)])].map Prod.fst).Nodup) ∧
    ([("a", [(1 : ℚ)])] = [] ++ ("a", [(1 : ℚ)]) :: []) ∧
    ([(2 : ℚ)] ≠ [(1 : ℚ)]) ∧
    ((processClocks false [("d", [⟨1, 0⟩])]
        (processClocks false [("d", [⟨1, 0⟩])] (fun _ => none)).2).1 = [] ∧
      (processData false [("a", [(1 : ℚ)])]
        (processData false [("a", [(1 : ℚ)])] (fun _ => none)).2.1).1 = [] ∧
      (processData false ([] ++ ("a", [(2 : ℚ)]) :: [])
        (processData false [("a", [(1 : ℚ)])] (fun _ => none)).2.1).1 = ["a"]) :=
  ⟨by simp, by simp, rfl, by norm_num,
    smart_cache_skips_unchanged false [("d", [⟨1, 0⟩])] [("a", [(1 : ℚ)])] [] []
      (fun _ => none) (fun _ => none) "a" [(1 : ℚ)] [(2 : ℚ)]
      (by simp) (by simp) rfl (by norm_num)⟩

/-- C6 as stated is false: at this concrete shot the flush fails with a short
write, yet the cache entry of the failed channel has already been replaced by
the newly encoded program (it held the previous shot's program before). -/
theorem transport_error_cache_modified_cx :
    (transitionClocksTransport false [("d", [⟨2, 0⟩])]
        (fun n => if n = "d" then some [(⟨1, 1⟩ : DigitalTick)] else none) false).2 =
      Except.error "short write" ∧
    (transitionClocksTransport false [("d", [⟨2, 0⟩])]
        (fun n => if n = "d" then some [(⟨1, 1⟩ : DigitalTick)] else none) false).1 "d" =
      some [⟨2, 0⟩] ∧
    some [(⟨2, 0⟩ : DigitalTick)] ≠ some [(⟨1, 1⟩ : DigitalTick)] := by
  refine ⟨rfl, ?_, by decide⟩
  simp [transitionClocksTransport, processClocks, Function.update]

/-- C6 amended: the cache entry is updated to the newly encoded program before
the buffered bytes are flushed, so after a transport error (flush_ok = false,
a short write or negative USB status) the cache of every processed channel
already holds the new program and the next non-fresh attempt skips, rather
than retransmits, the channel. -/
theorem transport_error_cache_holds_new_program (fresh : Bool)
    (chans : List (String × List DigitalTick))
    (cache : String → Option (List DigitalTick)) (flush_ok : Bool)
    (h : (chans.map Prod.fst).Nodup) (k : String) (a : List DigitalTick)
    (hm : (k, a) ∈ chans) :
    (transitionClocksTransport fresh chans cache flush_ok).1 k = some a :=
  processClocks_cache_mem fresh chans cache k a h hm

/-- Witness for transport_error_cache_holds_new_program at a failing flush. -/
theorem transport_error_cache_holds_new_program_witness :
    (([("d", [(⟨2, 0⟩ : DigitalTick)])].map Prod.fst).Nodup) ∧
    (("d", [(⟨2, 0⟩ : DigitalTick)]) ∈ [("d", [(⟨2, 0⟩ : DigitalTick)])]) ∧
    (transitionClocksTransport false [("d", [⟨2, 0⟩])]
        (fun _ => none) false).1 "d" = some [⟨2, 0⟩] :=
  ⟨by simp, by simp,
    transport_error_cache_holds_new_program false [("d", [⟨2, 0⟩])]
      (fun _ => none) false (by simp) "d" [⟨2, 0⟩] (by simp)⟩

/-- C9 as stated is false: at this second shot the sample array [2] of channel
a equals the cached one and fresh_program is unset, so the loop skips the
channel and the returned final_state carries no entry for it, although the
array has the last value 2. -/
theorem analog_final_state_missing_cx :
    (processData false [("a", [(2 : ℚ)])]
        (fun n => if n = "a" then some [(2 : ℚ)] else none)).2.2 = [] ∧
    ((processData false [("a", [(2 : ℚ)])]
        (fun n => if n = "a" then some [(2 : ℚ)] else none)).2.2).lookup "a" = none ∧
    ([(2 : ℚ)].getLast? = some 2) := by
  refine ⟨by simp [processData], by simp [processData], rfl⟩

/-- C9 amended: an analog channel receives a final_state entry - then equal to
the last value of its sample array - exactly when its data is transmitted this
shot, that is when fresh_program is set or its array differs from the cached
one; a skipped channel gets no entry. -/
theorem analog_final_state_iff_sent (f : Bool) (chans : List (String × List ℚ))
    (cache : String → Option (List ℚ)) (k : String) (d : List ℚ)
    (h : (chans.map Prod.fst).Nodup) (hm : (k, d) ∈ chans) :
    ((processData f chans cache).2.2).lookup k =
      (if f || decide (cache k ≠ some d) then some d.getLast? else none) :=
  processData_final_lookup f chans cache k d h hm

/-- Witness for analog_final_state_iff_sent on a first transmission. -/
theorem analog_final_state_iff_sent_witness :
    (([("a", [(1 : ℚ)])].map Prod.fst).Nodup) ∧
    (("a", [(1 : ℚ)]) ∈ [("a", [(1 : ℚ)])]) ∧
    ((processData false [("a", [(1 : ℚ)])] (fun _ => none)).2.2).lookup "a" =
      (if false || decide ((none : Option (List ℚ)) ≠ some [(1 : ℚ)])
        then some ([(1 : ℚ)].getLast?) else none) :=
  ⟨by simp, by simp,
    analog_final_state_iff_sent false [("a", [(1 : ℚ)])] (fun _ => none) "a"
      [(1 : ℚ)] (by simp) (by simp)⟩

/-- Witness for send_buffer_chunked_exact at a two-string buffer and chunk
size two. -/
theorem send_buffer_chunked_exact_witness :
    (0 < 2) ∧
    (((send_buffer [[1, 2, 3], [4]] (some 2)).1).flatten =
        ([[1, 2, 3], [4]] : List (List ℕ)).flatten ∧
      (∀ t ∈ (send_buffer [[1, 2, 3], [4]] (some 2)).1, t.length ≤ 2 ∧ t ≠ []) ∧
      (send_buffer [[1, 2, 3], [4]] (some 2)).2 = [] ∧
      (send_buffer ([] : List (List ℕ)) (some 2)).1 = []) :=
  ⟨by decide, send_buffer_chunked_exact [[1, 2, 3], [4]] 2 (by decide)⟩

/-- Decimal digit characters are digits. -/
theorem digitChar_isDigit (d : ℕ) (h : d < 10) : (Nat.digitChar d).isDigit = true := by
  interval_cases d <;> decide

/-- Reading a decimal digit character back as int() does recovers the digit. -/
theorem digitChar_toNat (d : ℕ) (h : d < 10) : (Nat.digitChar d).toNat - 48 = d := by
  interval_cases d <;> decide

/-- A decimal digit character is not an underscore. -/
theorem digitChar_ne_underscore (d : ℕ) (h : d < 10) : Nat.digitChar d ≠ '_' := by
  interval_cases d <;> decide

/-- Folding the int() accumulation over a digit string computes the base-10
value of the digits with the seed shifted past them. -/
theorem foldl_digits : ∀ (ds : List ℕ), (∀ d ∈ ds, d < 10) → ∀ a : ℕ,
    ((ds.reverse).map Nat.digitChar).foldl (fun a c => 10 * a + (c.toNat - 48)) a =
      a * 10 ^ ds.length + Nat.ofDigits 10 ds := by
  intro ds
  induction ds with
  | nil => intro _ a; simp
  | cons d tail ih =>
      intro hds a
      have hd : d < 10 := hds d (List.mem_cons_self _ _)
      have htail : ∀ x ∈ tail, x < 10 := fun x hx => hds x (List.mem_cons_of_mem _ hx)
      rw [List.reverse_cons, List.map_append, List.foldl_append, ih htail a]
      simp only [List.map_cons, List.map_nil, List.foldl_cons, List.foldl_nil,
        digitChar_toNat d hd, List.length_cons, Nat.ofDigits_cons]
      ring

/-- Every character of the decimal form of a natural is a digit. -/
theorem pyStrNat_all_digits (n : ℕ) : ∀ c ∈ pyStrNat n, c.isDigit = true := by
  by_cases h0 : n = 0
  · subst h0; intro c hc; rw [pyStrNat] at hc; simp at hc; subst hc; decide
  · intro c hc
    rw [pyStrNat, if_neg h0, natDigitsChars] at hc
    obtain ⟨d, hd, hdc⟩ := List.mem_map.mp hc
    have : d < 10 := Nat.digits_lt_base (by norm_num) (List.mem_reverse.mp hd)
    exact hdc ▸ digitChar_isDigit d this

/-- The decimal form of a natural is nonempty. -/
theorem pyStrNat_ne_nil (n : ℕ) : pyStrNat n ≠ [] := by
  by_cases h0 : n = 0
  · subst h0; rw [pyStrNat]; simp
  · rw [pyStrNat, if_neg h0, natDigitsChars]
    simp only [ne_eq, List.map_eq_nil_iff, List.reverse_eq_nil_iff]
    exact Nat.digits_ne_nil_iff_ne_zero.mpr h0

/-- int() inverts str() on naturals. -/
theorem pyParseNat_pyStrNat (n : ℕ) : pyParseNat (pyStrNat n) = some n := by
  rw [pyParseNat,
    if_pos ⟨pyStrNat_ne_nil n, List.all_eq_true.mpr (pyStrNat_all_digits n)⟩]
  by_cases h0 : n = 0
  · subst h0; rfl
  · rw [pyStrNat, if_neg h0, natDigitsChars, digitsVal,
      foldl_digits _ (fun d hd => Nat.digits_lt_base (by norm_num) hd) 0]
    simp [Nat.ofDigits_digits]

/-- No underscore occurs in the decimal form of a natural. -/
theorem underscore_not_mem_pyStrNat (n : ℕ) : '_' ∉ pyStrNat n := by
  intro hmem
  have := pyStrNat_all_digits n '_' hmem
  exact absurd this (by decide)

/-- No underscore occurs in the decimal form of an integer. -/
theorem underscore_not_mem_pyStrInt (i : ℤ) : '_' ∉ pyStrInt i := by
  rw [pyStrInt]
  split
  · intro hmem
    rcases List.mem_cons.mp hmem with hc | hc
    · exact absurd hc (by decide)
    · exact underscore_not_mem_pyStrNat _ hc
  · exact underscore_not_mem_pyStrNat _

/-- int() inverts str() on integers. -/
theorem pyParseInt_pyStrInt (i : ℤ) : pyParseInt (pyStrInt i) = some i := by
  rw [pyStrInt]
  split
  · next hneg =>
      rw [pyParseInt, if_pos rfl, pyParseNat_pyStrNat]
      simp only [Option.map_some']
      rw [Int.ofNat_natAbs_of_nonpos (le_of_lt hneg)]
      simp
  · next hpos =>
      cases hs : pyStrNat i.natAbs with
      | nil => exact absurd hs (pyStrNat_ne_nil _)
      | cons c rest =>
          have hdig : c.isDigit = true :=
            pyStrNat_all_digits i.natAbs c (hs ▸ List.mem_cons_self _ _)
          have hcm : ¬(c = '-') := by
            intro hc
            rw [hc] at hdig
            exact absurd hdig (by decide)
          rw [pyParseInt, if_neg hcm, ← hs, pyParseNat_pyStrNat]
          simp only [Option.map_some', Option.some.injEq]
          exact Int.natAbs_of_nonneg (not_lt.mp hpos)

/-- A separator-free string splits to itself. -/
theorem pySplit_no_sep (sep : Char) : ∀ a : List Char, sep ∉ a → pySplit sep a = [a] := by
  intro a
  induction a with
  | nil => intro _; rfl
  | cons c t ih =>
      intro h
      simp only [List.mem_cons, not_or] at h
      rw [pySplit, if_neg (fun hc => h.1 hc.symm), ih h.2]

/-- Splitting at the first separator after a separator-free prefix emits the
prefix and splits the remainder. -/
theorem pySplit_sep_cons (sep : Char) : ∀ (a b : List Char), sep ∉ a →
    pySplit sep (a ++ sep :: b) = a :: pySplit sep b := by
  intro a
  induction a with
  | nil => intro b _; rw [List.nil_append, pySplit, if_pos rfl]
  | cons c t ih =>
      intro b h
      simp only [List.mem_cons, not_or] at h
      rw [List.cons_append, pySplit, if_neg (fun hc => h.1 hc.symm), ih b h.2]

/-- C7: decoding the channel identity token built from a 4-tuple whose kind
and group contain no underscore and whose board and channel are integers
returns exactly the original tuple. -/
theorem decode_encode_roundtrip (type_ group_name : List Char) (board channel : ℤ)
    (ht : '_' ∉ type_) (hg : '_' ∉ group_name) :
    OutputConnectionName.decode (outputConnectionName type_ board channel group_name) =
      some (type_, board, channel, group_name) := by
  have hsplit :
      pySplit '_' (type_ ++ ('_' :: (pyStrInt board ++
          ('_' :: (pyStrInt channel ++ ('_' :: group_name)))))) =
        [type_, pyStrInt board, pyStrInt channel, group_name] := by
    rw [pySplit_sep_cons '_' _ _ ht,
      pySplit_sep_cons '_' _ _ (underscore_not_mem_pyStrInt board),
      pySplit_sep_cons '_' _ _ (underscore_not_mem_pyStrInt channel),
      pySplit_no_sep '_' _ hg]
  simp only [outputConnectionName, OutputConnectionName.decode, hsplit,
    pyParseInt_pyStrInt]

/-- Witness for decode_encode_roundtrip at the token analog_1_12_g. -/
theorem decode_encode_roundtrip_witness :
    ('_' ∉ ['a', 'n']) ∧ ('_' ∉ ['g']) ∧
    OutputConnectionName.decode (outputConnectionName ['a', 'n'] 1 12 ['g']) =
      some (['a', 'n'], 1, 12, ['g']) :=
  ⟨by decide, by decide,
    decode_encode_roundtrip ['a', 'n'] ['g'] 1 12 (by decide) (by decide)⟩
